import Mathlib

/-
Verification of the Tenuous Beliefs solver (Tenuous.py) against its
specification.  The Python source is shallowly embedded: the control logic of
the solver pipeline is translated into Lean functions over exact rationals,
the float computations feeding the HJB right-hand side are translated over an
`Option ℝ` carrier whose `none` models a non-finite IEEE value (NaN produced
by `np.sqrt` of a negative number or by an indeterminate division), and the
dense linear solves (`numpy.linalg.solve`, `scipy.sparse.linalg.spsolve`) are
modelled by Cramer's rule, which agrees with the library solvers exactly when
the system matrix is nonsingular (the library raises on singular input, which
the specification classifies as a fatal `SingularLinearSystem` error).
-/

namespace Tenuous

/-- A Python float as used by the calibration control flow: a finite value
(modelled exactly as a rational) or `np.inf`. -/
inductive PyVal where
  | fin (q : ℚ)
  | inf
deriving DecidableEq

/-- The fields of `StructuredModel` that `solvetheta` reads and writes:
`self.θ` (unset at construction), `self.status` (0 at construction),
and the recorded diagnostics `self.qErr`, `self.dvErr` (unset at
construction, written by the non-grid-search calls to
`__CalibratingTheta` made inside `fsolve`). -/
structure MState where
  θ : Option PyVal
  status : ℕ
  qErr : Option ℚ
  dvErr : Option ℚ
deriving DecidableEq

/-- The outcome of the `fsolve` refinement over θ in `solvetheta`: the root
returned by `fsolve`, the diagnostics recorded by its last evaluation of
`__CalibratingTheta(·, False)`, and the number of function evaluations
`fsolve` performed (capped by `maxfev = 20`).  These come out of scipy's
iterative root finder and therefore enter the embedding as oracle data. -/
structure CalibOutcome where
  θ : ℚ
  qErr : ℚ
  dvErr : ℚ
  nFev : ℕ
deriving DecidableEq

/-- A run of `solvetheta`: the final model state together with the number of
calls made to `__CalibratingTheta` and to `fsolve` during the run. -/
structure SolveThetaRun where
  state : MState
  nCalibCalls : ℕ
  nFsolveCalls : ℕ
deriving DecidableEq

/-- `StructuredModel.solvetheta` (Tenuous.py lines 377-396).  If the target
relative entropy `qᵤₛ` is `np.inf`, set `θ = np.inf` and `status = 1`
without touching `__CalibratingTheta` or `fsolve`.  Otherwise the grid
search evaluates `__CalibratingTheta` at the 8 fixed candidates, `fsolve`
refines (performing `cal.nFev` further evaluations), θ and the recorded
residuals are stored, and `status` is set to 1 exactly when
`self.qErr < 1e-2 and self.dvErr < 1e-4`. -/
def solvetheta (qus : PyVal) (m : MState) (cal : CalibOutcome) : SolveThetaRun :=
  if qus = PyVal.inf then
    { state := { m with θ := some PyVal.inf, status := 1 },
      nCalibCalls := 0, nFsolveCalls := 0 }
  else
    let m1 : MState :=
      { m with θ := some (PyVal.fin cal.θ),
               qErr := some cal.qErr, dvErr := some cal.dvErr }
    { state := if cal.qErr < 1/100 ∧ cal.dvErr < 1/10000 then
                 { m1 with status := 1 } else m1,
      nCalibCalls := 8 + cal.nFev, nFsolveCalls := 1 }

/-- The diagnostic fields written by `__CalibratingTheta`. -/
structure Diag where
  qErr : Option ℚ
  dvErr : Option ℚ
deriving DecidableEq

/-- The result of one `__CalibratingTheta` evaluation: the diagnostic fields
after the call, the returned value, and the number of times the
`__Distortion` → `__RelativeEntropyUS` pipeline was run during the call. -/
structure CalibEval where
  diag : Diag
  ret : PyVal
  nEntropyEvals : ℕ
deriving DecidableEq

/-- `StructuredModel.__CalibratingTheta` (Tenuous.py lines 353-375), as a
function of the oracle outputs of its callees: `matchDiff` is `res['diff']`
from `__MatchODE` and `qusImplied` is the entropy produced by
`__Distortion` → `__RelativeEntropyUS` (both computed by scipy's iterative
solvers).  In grid-search mode a kink residual strictly above 1 short-circuits
to `np.inf` without running the entropy pipeline and without recording
diagnostics; otherwise, and always in refinement mode, the entropy difference
is computed, and in refinement mode `dvErr`, `qErr` are recorded. -/
def CalibratingTheta (pre : Diag) (matchDiff qusImplied qusTarget : ℚ)
    (gridsearch : Bool) : CalibEval :=
  if gridsearch then
    if 1 < matchDiff then ⟨pre, PyVal.inf, 0⟩
    else ⟨pre, PyVal.fin (qusImplied - qusTarget), 1⟩
  else
    ⟨⟨some (qusImplied - qusTarget), some matchDiff⟩,
      PyVal.fin (qusImplied - qusTarget), 1⟩

/-- `np.arange a b step` for a positive step: the values `a + k·step` for
`k < ⌈(b - a)/step⌉`. -/
def arange (a b step : ℚ) : List ℚ :=
  (List.range (Int.ceil ((b - a) / step)).toNat).map (fun k : ℕ => a + (k : ℚ) * step)

/-- The negative half of the canonical state grid,
`np.append(np.arange(-2.5, 0, self.Dz), 0)` with `self.Dz = 0.01`
(Tenuous.py line 289). -/
def xneg : List ℚ := arange (-5/2) 0 (1/100) ++ [0]

/-- The positive half of the canonical state grid,
`np.append(np.arange(0, 2.5, self.Dz), 2.5)` (Tenuous.py line 293). -/
def xpos : List ℚ := arange 0 (5/2) (1/100) ++ [5/2]

/-- The canonical state grid `np.hstack([x_neg, x_pos[1:]])`
(Tenuous.py line 298), onto which `__MatchODE` resamples the matched
solution and over which the entropy and Chernoff generator matrices are
built. -/
def zgrid : List ℚ := xneg ++ xpos.drop 1

/-- The mean-reversion point `params['z̄'] = params['αz'] / params['βz']`
(Tenuous.py line 38). -/
def zbar (αz βz : ℚ) : ℚ := αz / βz

theorem map_range_split (f : ℕ → ℚ) (a b : ℕ) :
    (List.range (a + b)).map f
      = (List.range a).map f ++ (List.range b).map (fun x => f (a + x)) := by
  rw [List.range_add, List.map_append, List.map_map]
  rfl

theorem arange_neg_eq :
    arange (-5/2) 0 (1/100) = (List.range 250).map (fun k : ℕ => -5/2 + (k : ℚ) / 100) := by
  unfold arange
  have hc : (Int.ceil (((0 : ℚ) - (-5/2)) / (1/100))).toNat = 250 := by
    have h1 : ((0 : ℚ) - (-5/2)) / (1/100) = ((250 : ℕ) : ℚ) := by norm_num
    rw [h1, Int.ceil_natCast]
    rfl
  rw [hc]
  exact List.map_congr_left fun k _ => by rw [mul_one_div]

theorem arange_pos_eq :
    arange 0 (5/2) (1/100) = (List.range 250).map (fun k : ℕ => (k : ℚ) / 100) := by
  unfold arange
  have hc : (Int.ceil (((5/2 : ℚ) - 0) / (1/100))).toNat = 250 := by
    have h1 : ((5/2 : ℚ) - 0) / (1/100) = ((250 : ℕ) : ℚ) := by norm_num
    rw [h1, Int.ceil_natCast]
    rfl
  rw [hc]
  exact List.map_congr_left fun k _ => by rw [mul_one_div, zero_add]

set_option maxRecDepth 4000 in
/-- The canonical grid is the arithmetic progression from -2.5 to 2.5 with
step 1/100. -/
theorem zgrid_eq_progression :
    zgrid = (List.range 501).map (fun i : ℕ => -5/2 + (i : ℚ) / 100) := by
  have h501 : (501 : ℕ) = 250 + (1 + (249 + 1)) := by norm_num
  rw [h501, map_range_split, map_range_split, map_range_split]
  unfold zgrid xneg xpos
  rw [arange_neg_eq, arange_pos_eq]
  have hdrop : ((List.range 250).map (fun k : ℕ => (k : ℚ) / 100) ++ [5/2]).drop 1
      = ((List.range 250).map (fun k : ℕ => (k : ℚ) / 100)).drop 1 ++ [(5/2 : ℚ)] := by
    rw [List.drop_append_eq_append_drop]
    simp
  rw [hdrop]
  have h250 : (250 : ℕ) = 1 + 249 := by norm_num
  have hdrop2 : ((List.range 250).map (fun k : ℕ => (k : ℚ) / 100)).drop 1
      = (List.range 249).map (fun x : ℕ => ((1 + x : ℕ) : ℚ) / 100) := by
    rw [h250, map_range_split]
    simp
  rw [hdrop2]
  have hr1 : List.range 1 = [0] := rfl
  simp only [hr1, List.map_cons, List.map_nil, List.append_assoc]
  congr 1
  congr 1
  · norm_num
  congr 1
  · exact List.map_congr_left fun k _ => by push_cast; ring
  congr 1
  push_cast
  norm_num

/-- Every grid index below 501 gives the corresponding progression value. -/
theorem zgrid_getElem (i : ℕ) (h : i < zgrid.length) :
    zgrid[i] = -5/2 + (i : ℚ) / 100 := by
  have hl : i < 501 := by
    have := h
    rw [zgrid_eq_progression] at this
    simpa using this
  simp [zgrid_eq_progression]

/-- Membership in the canonical grid characterised: exactly the 501 points
-5/2 + i/100 for i < 501. -/
theorem zgrid_mem_iff (q : ℚ) :
    q ∈ zgrid ↔ ∃ i : ℕ, i < 501 ∧ q = -5/2 + (i : ℚ) / 100 := by
  rw [zgrid_eq_progression]
  simp only [List.mem_map, List.mem_range]
  constructor
  · rintro ⟨i, hi, rfl⟩
    exact ⟨i, hi, rfl⟩
  · rintro ⟨i, hi, rfl⟩
    exact ⟨i, hi, rfl⟩

theorem zgrid_length : zgrid.length = 501 := by
  rw [zgrid_eq_progression]
  simp

/-- Claim C1 (theorem): with a finite entropy target, after `solvetheta` on a
freshly constructed model (status 0) the status is 1 exactly when the recorded
entropy residual is below 1e-2 and the recorded kink residual is below 1e-4;
in every other case the status stays 0, even though θ has been stored. -/
theorem solvetheta_status_iff (q : ℚ) (m : MState) (cal : CalibOutcome)
    (h0 : m.status = 0) :
    (((solvetheta (PyVal.fin q) m cal).state.status = 1) ↔
        (cal.qErr < 1/100 ∧ cal.dvErr < 1/10000)) ∧
    ((¬ (cal.qErr < 1/100 ∧ cal.dvErr < 1/10000)) →
        (solvetheta (PyVal.fin q) m cal).state.status = 0) ∧
    (solvetheta (PyVal.fin q) m cal).state.θ = some (PyVal.fin cal.θ) := by
  have hne : PyVal.fin q ≠ PyVal.inf := by simp
  have hs : (solvetheta (PyVal.fin q) m cal).state.status
      = if cal.qErr < 1/100 ∧ cal.dvErr < 1/10000 then 1 else m.status := by
    unfold solvetheta
    rw [if_neg hne]
    split_ifs <;> rfl
  have hθ : (solvetheta (PyVal.fin q) m cal).state.θ = some (PyVal.fin cal.θ) := by
    unfold solvetheta
    rw [if_neg hne]
    split_ifs <;> rfl
  refine ⟨?_, ?_, hθ⟩
  · rw [hs]
    split_ifs with h
    · exact iff_of_true rfl h
    · refine iff_of_false ?_ h
      rw [h0]
      omega
  · intro hc
    rw [hs, if_neg hc, h0]

/-- Witness for C1 at a concrete state and calibration outcome. -/
theorem solvetheta_status_iff_witness :
    ((((solvetheta (PyVal.fin (1/10)) ⟨none, 0, none, none⟩ ⟨1/2, 1/200, 1/20000, 5⟩).state.status
        = 1) ↔ ((1:ℚ)/200 < 1/100 ∧ (1:ℚ)/20000 < 1/10000)) ∧
      ((¬ ((1:ℚ)/200 < 1/100 ∧ (1:ℚ)/20000 < 1/10000)) →
        (solvetheta (PyVal.fin (1/10)) ⟨none, 0, none, none⟩
          ⟨1/2, 1/200, 1/20000, 5⟩).state.status = 0) ∧
      (solvetheta (PyVal.fin (1/10)) ⟨none, 0, none, none⟩
          ⟨1/2, 1/200, 1/20000, 5⟩).state.θ = some (PyVal.fin (1/2))) :=
  solvetheta_status_iff (1/10) ⟨none, 0, none, none⟩ ⟨1/2, 1/200, 1/20000, 5⟩ rfl

/-- Claim C2 (theorem): with an infinite entropy target, `solvetheta` sets
θ = np.inf and status = 1, and performs no `__CalibratingTheta` evaluation
and no `fsolve` call. -/
theorem solvetheta_infinite_target (m : MState) (cal : CalibOutcome) :
    (solvetheta PyVal.inf m cal).state.θ = some PyVal.inf ∧
    (solvetheta PyVal.inf m cal).state.status = 1 ∧
    (solvetheta PyVal.inf m cal).nCalibCalls = 0 ∧
    (solvetheta PyVal.inf m cal).nFsolveCalls = 0 := by
  simp [solvetheta]

/-- Claim C8 (theorem): in grid-search mode `__CalibratingTheta` returns
`np.inf` (without running the entropy pipeline and without recording
diagnostics) exactly when the kink residual exceeds 1; otherwise, and always
in refinement mode, the entropy difference is computed and returned, and in
refinement mode the diagnostics `qErr`, `dvErr` are recorded. -/
theorem calibratingTheta_threshold (pre : Diag) (diff q t : ℚ) :
    (1 < diff → CalibratingTheta pre diff q t true = ⟨pre, PyVal.inf, 0⟩) ∧
    (¬ 1 < diff →
      CalibratingTheta pre diff q t true = ⟨pre, PyVal.fin (q - t), 1⟩) ∧
    (CalibratingTheta pre diff q t false
      = ⟨⟨some (q - t), some diff⟩, PyVal.fin (q - t), 1⟩) := by
  refine ⟨fun h => ?_, fun h => ?_, ?_⟩
  · simp [CalibratingTheta, h]
  · simp [CalibratingTheta, h]
  · simp [CalibratingTheta]

/-- Witness for C8: the three behaviours at concrete residuals. -/
theorem calibratingTheta_threshold_witness :
    CalibratingTheta ⟨none, none⟩ 2 5 3 true = ⟨⟨none, none⟩, PyVal.inf, 0⟩ ∧
    CalibratingTheta ⟨none, none⟩ (1/2) 5 3 true
      = ⟨⟨none, none⟩, PyVal.fin 2, 1⟩ ∧
    CalibratingTheta ⟨none, none⟩ (1/2) 5 3 false
      = ⟨⟨some 2, some (1/2)⟩, PyVal.fin 2, 1⟩ := by
  refine ⟨(calibratingTheta_threshold ⟨none, none⟩ 2 5 3).1 (by norm_num),
    ?_, ?_⟩
  · have h := (calibratingTheta_threshold ⟨none, none⟩ (1/2) 5 3).2.1 (by norm_num)
    rw [h]
    norm_num
  · have h := (calibratingTheta_threshold ⟨none, none⟩ (1/2) 5 3).2.2
    rw [h]
    norm_num

/-- Claim C4 (counterexample): a model with `αz = 1/200`, `βz = 1` is an
admissible parameterisation (two arbitrary drift scalars), yet its
mean-reversion point z̄ = 1/200 is not a point of the canonical grid, so the
pinning row `zgrid == z̄` of the entropy linear system is empty. -/
theorem zgrid_not_mem_zbar_counterexample : zbar (1/200) 1 ∉ zgrid := by
  intro h
  rw [zgrid_mem_iff] at h
  obtain ⟨i, hi, he⟩ := h
  have hz : zbar (1/200) 1 = 1/200 := by norm_num [zbar]
  rw [hz] at he
  have h2 : ((2 * i : ℕ) : ℚ) = ((501 : ℕ) : ℚ) := by
    push_cast
    linarith
  have := Nat.cast_injective h2
  omega

/-- Claim C4 (amended theorem): the canonical grid has 501 points, is evenly
spaced with step 1/100 (hence strictly increasing), starts at -5/2 and ends
at 5/2, contains every multiple -5/2 + k/100 of the step inside the span —
and therefore contains the mean-reversion point z̄ = αz/βz exactly whenever
z̄ is such a multiple; in particular for the default parameterisation αz = 0
the pinned point z̄ = 0 is always a grid point. -/
theorem zgrid_spacing_and_membership :
    zgrid.length = 501 ∧
    (∀ i : ℕ, i + 1 < zgrid.length →
      zgrid.getD (i+1) 0 = zgrid.getD i 0 + 1/100) ∧
    (zgrid.getD 0 0 = -5/2 ∧ zgrid.getD 500 0 = 5/2) ∧
    (∀ k : ℕ, k < 501 → (-5/2 + (k : ℚ)/100) ∈ zgrid) ∧
    (∀ αz βz : ℚ, αz = 0 → zbar αz βz ∈ zgrid) := by
  have hget : ∀ i : ℕ, i < 501 → zgrid.getD i 0 = -5/2 + (i : ℚ)/100 := by
    intro i hi
    have hlen : i < zgrid.length := by rw [zgrid_length]; exact hi
    rw [List.getD_eq_getElem?_getD, List.getElem?_eq_getElem hlen]
    simp [zgrid_getElem i hlen]
  refine ⟨zgrid_length, ?_, ⟨?_, ?_⟩, ?_, ?_⟩
  · intro i hi
    rw [zgrid_length] at hi
    rw [hget (i+1) hi, hget i (by omega)]
    push_cast
    ring
  · rw [hget 0 (by norm_num)]
    norm_num
  · rw [hget 500 (by norm_num)]
    norm_num
  · intro k hk
    rw [zgrid_mem_iff]
    exact ⟨k, hk, rfl⟩
  · intro αz βz h
    subst h
    have hz : zbar 0 βz = 0 := by simp [zbar]
    rw [hz, zgrid_mem_iff]
    exact ⟨250, by norm_num, by norm_num⟩

/-- Witness for the amended C4 at concrete indices and parameters. -/
theorem zgrid_spacing_and_membership_witness :
    zgrid.getD 1 0 = zgrid.getD 0 0 + 1/100 ∧
    (-5/2 + (37 : ℚ)/100) ∈ zgrid ∧
    zbar 0 (7/500) ∈ zgrid := by
  obtain ⟨hlen, hsp, _, hmem, hz⟩ := zgrid_spacing_and_membership
  exact ⟨hsp 0 (by rw [hlen]; norm_num), hmem 37 (by norm_num),
    hz 0 (7/500) rfl⟩

/-- Row z of `drift = self.σ.dot(self.Distorted[2:, :])`: with
`σ = np.vstack([σk.T, σz.T])` its second row applied to the drift-shift
coordinates (h1, h2) gives σz1·h1 + σz2·h2 at each grid point (used both in
`UpdatingDrift` line 450 and `ExpectH` line 468). -/
def driftzRow (σz1 σz2 h1 h2 : ℚ) : ℚ := σz1 * h1 + σz2 * h2

/-- `self.driftz` as stored by `UpdatingDrift` (Tenuous.py line 452):
`drift[1,:] + αz - βz*(v['x'] - z̄)`. -/
def driftzUpd (σz1 σz2 αz βz zb : ℚ) {n : ℕ} (x h1 h2 : Fin n → ℚ) (j : Fin n) : ℚ :=
  driftzRow σz1 σz2 (h1 j) (h2 j) + αz - βz * (x j - zb)

/-- The drift `μz` that `ExpectH` (Tenuous.py line 469) feeds to
`FeynmanKac`: `drift[1,:] + αz - βz * v['x']`. -/
def expectHdriftz (σz1 σz2 αz βz : ℚ) {n : ℕ} (x h1 h2 : Fin n → ℚ) (j : Fin n) : ℚ :=
  driftzRow σz1 σz2 (h1 j) (h2 j) + αz - βz * x j

/-- Claim C9 (theorem): on a nonempty grid, the drift `ExpectH` feeds to the
forward solver equals the stored `driftz` of `UpdatingDrift` shifted by the
constant βz·z̄, and (since the model requires βz ≠ 0 to form z̄ = αz/βz at
all) the two drift fields agree at every grid point if and only if z̄ = 0. -/
theorem expectH_drift_vs_updatingDrift (σz1 σz2 αz βz zb : ℚ) (n : ℕ)
    (x h1 h2 : Fin (n+1) → ℚ) (hβ : βz ≠ 0) :
    (∀ j, expectHdriftz σz1 σz2 αz βz x h1 h2 j
        = driftzUpd σz1 σz2 αz βz zb x h1 h2 j - βz * zb) ∧
    ((∀ j, expectHdriftz σz1 σz2 αz βz x h1 h2 j
        = driftzUpd σz1 σz2 αz βz zb x h1 h2 j) ↔ zb = 0) := by
  constructor
  · intro j
    unfold expectHdriftz driftzUpd
    ring
  constructor
  · intro h
    have h0 := h 0
    unfold expectHdriftz driftzUpd at h0
    have hmul : βz * zb = 0 := by linarith
    rcases mul_eq_zero.mp hmul with h1 | h2
    · exact absurd h1 hβ
    · exact h2
  · intro h j
    subst h
    unfold expectHdriftz driftzUpd
    ring

/-- Witness for C9 at a concrete parameterisation with z̄ ≠ 0. -/
theorem expectH_drift_vs_updatingDrift_witness :
    (∀ j, expectHdriftz 0 1 0 1 (fun _ : Fin 1 => 0) (fun _ => 0) (fun _ => 0) j
        = driftzUpd 0 1 0 1 (1/4) (fun _ => 0) (fun _ => 0) (fun _ => 0) j
          - 1 * (1/4)) ∧
    ((∀ j, expectHdriftz 0 1 0 1 (fun _ : Fin 1 => 0) (fun _ => 0) (fun _ => 0) j
        = driftzUpd 0 1 0 1 (1/4) (fun _ => 0) (fun _ => 0) (fun _ => 0) j)
      ↔ (1/4 : ℚ) = 0) :=
  expectH_drift_vs_updatingDrift 0 1 0 1 (1/4) 0
    (fun _ => 0) (fun _ => 0) (fun _ => 0) one_ne_zero

/-- Value carrier for the float computations in `__mined`, `__S1` and
`__HJBODE`: `some r` is a finite float idealised as a real, `none` a
non-finite value (NaN from `np.sqrt` of a negative argument, or an
indeterminate division).  In the expressions below IEEE arithmetic never
turns a non-finite intermediate back into a finite result, so propagation
of `none` models propagation of NaN. -/
abbrev Flt := Option ℝ

noncomputable def fadd : Flt → Flt → Flt := fun a b => a.bind fun x => b.map fun y => x + y

noncomputable def fsub : Flt → Flt → Flt := fun a b => a.bind fun x => b.map fun y => x - y

noncomputable def fmul : Flt → Flt → Flt := fun a b => a.bind fun x => b.map fun y => x * y

noncomputable def fdiv : Flt → Flt → Flt := fun a b =>
  a.bind fun x => b.bind fun y => if y = 0 then none else some (x / y)

/-- `np.sqrt`: NaN on a negative argument. -/
noncomputable def fsqrt : Flt → Flt := fun a =>
  a.bind fun x => if x < 0 then none else some (Real.sqrt x)

/-- Python `min(a, b)`: returns `b` if `b < a` else `a`; every comparison
against NaN is false, so `min(x, nan) = x` but `min(nan, y) = nan`. -/
noncomputable def pymin : Flt → Flt → Flt := fun a b =>
  match a, b with
  | some x, some y => if y < x then some y else some x
  | some x, none => some x
  | none, _ => none

/-- `np.min` over a 2-element column: NaN-propagating minimum. -/
noncomputable def npmin2 : Flt → Flt → Flt := fun a b =>
  match a, b with
  | some x, some y => some (min x y)
  | _, _ => none

/-- The float value of the boolean `mined1 <= mined2` (false on NaN). -/
noncomputable def fleInd : Flt → Flt → ℝ := fun a b =>
  match a, b with
  | some x, some y => if x ≤ y then 1 else 0
  | _, _ => 0

/-- The float value of the boolean `mined1 > mined2` (false on NaN). -/
noncomputable def fgtInd : Flt → Flt → ℝ := fun a b =>
  match a, b with
  | some x, some y => if y < x then 1 else 0
  | _, _ => 0

/-- The scalar model parameters held by a `StructuredModel` and read by
`__mined`, `__S1` and `__HJBODE`. -/
structure MP where
  αk : ℝ
  αz : ℝ
  βk : ℝ
  βz : ℝ
  δ : ℝ
  ρ1 : ℝ
  ρ2 : ℝ
  zb : ℝ
  q0s : ℝ
  σk1 : ℝ
  σk2 : ℝ
  σz1 : ℝ
  σz2 : ℝ

/-- det of `σ = np.vstack([σk.T, σz.T])` (Tenuous.py line 39). -/
noncomputable def MP.σdet (P : MP) : ℝ := P.σk1 * P.σz2 - P.σk2 * P.σz1

/-- `params['a'] = norm(σz)² / det(σ)²` (line 40). -/
noncomputable def MP.a (P : MP) : ℝ := (P.σz1^2 + P.σz2^2) / P.σdet^2

/-- `params['b'] = -σk.T·σz / det(σ)²` (line 41). -/
noncomputable def MP.b (P : MP) : ℝ := -(P.σk1 * P.σz1 + P.σk2 * P.σz2) / P.σdet^2

/-- `params['d'] = norm(σk)² / det(σ)²` (line 42). -/
noncomputable def MP.d (P : MP) : ℝ := (P.σk1^2 + P.σk2^2) / P.σdet^2

/-- `norm(self.σz) ** 2`. -/
noncomputable def MP.nσz2 (P : MP) : ℝ := P.σz1^2 + P.σz2^2

/-- `A = 0.5 * self.a` in `__mined` and `__S1` (lines 177, 203). -/
noncomputable def mA (P : MP) : ℝ := (1/2) * P.a

/-- `C0` of `__mined` (line 178). -/
noncomputable def mC0 (P : MP) (z : ℝ) : ℝ :=
  (P.ρ1 + P.ρ2 * (z - P.zb)) * (P.αz - P.βz * (z - P.zb))
    + P.nσz2 / 2 * P.ρ2 - P.q0s^2 / 2

/-- `C1` of `__mined` (line 179). -/
noncomputable def mC1 (P : MP) (z : ℝ) : ℝ := P.ρ1 + P.ρ2 * (z - P.zb)

/-- `C2 = 0.5 * self.d` (line 180). -/
noncomputable def mC2 (P : MP) : ℝ := (1/2) * P.d

/-- `D = b²/(2A) - 2·C2` (line 181). -/
noncomputable def mD (P : MP) : ℝ := P.b^2 / (2 * mA P) - 2 * mC2 P

/-- `E = (100·dv - b/(2A))²` (line 182). -/
noncomputable def mE (P : MP) (dv : ℝ) : ℝ := (100 * dv - P.b / (2 * mA P))^2

/-- `AA = E·b² - 4·A·E·C2 - D²` (line 184). -/
noncomputable def mAA (P : MP) (z dv : ℝ) : ℝ :=
  mE P dv * P.b^2 - 4 * mA P * mE P dv * mC2 P - mD P^2

/-- `BB = 2·C1·D - 4·A·E·C1` (line 185). -/
noncomputable def mBB (P : MP) (z dv : ℝ) : ℝ :=
  2 * mC1 P z * mD P - 4 * mA P * mE P dv * mC1 P z

/-- `CC = -4·A·C0·E - C1²` (line 186). -/
noncomputable def mCC (P : MP) (z dv : ℝ) : ℝ :=
  -(4 * mA P * mC0 P z * mE P dv) - mC1 P z^2

/-- The discriminant `BB² - 4·AA·CC` under the square root of line 188. -/
noncomputable def discMined (P : MP) (z dv : ℝ) : ℝ :=
  mBB P z dv^2 - 4 * mAA P z dv * mCC P z dv

/-- `s21 = (-BB + np.sqrt(BB² - 4·AA·CC)) / (2·AA)` (line 188). -/
noncomputable def s21F (P : MP) (z dv : ℝ) : Flt :=
  fdiv (fadd (some (-(mBB P z dv))) (fsqrt (some (discMined P z dv))))
    (some (2 * mAA P z dv))

/-- `s22 = (-BB - np.sqrt(BB² - 4·AA·CC)) / (2·AA)` (line 189). -/
noncomputable def s22F (P : MP) (z dv : ℝ) : Flt :=
  fdiv (fsub (some (-(mBB P z dv))) (fsqrt (some (discMined P z dv))))
    (some (2 * mAA P z dv))

/-- `B = b·s2` of `__S1` (line 204). -/
noncomputable def s1B (P : MP) (s2 : ℝ) : ℝ := P.b * s2

/-- `C` of `__S1` (line 205). -/
noncomputable def s1C (P : MP) (z s2 : ℝ) : ℝ :=
  (1/2) * P.d * s2^2 + mC1 P z * s2 + mC1 P z * (P.αz - P.βz * (z - P.zb))
    + P.nσz2 / 2 * P.ρ2 - P.q0s^2 / 2

/-- The discriminant `B² - 4·A·C` under the square root of line 207. -/
noncomputable def discS1 (P : MP) (z s2 : ℝ) : ℝ := s1B P s2^2 - 4 * mA P * s1C P z s2

/-- `__S1` (lines 201-207): `(-B - np.sqrt(B² - 4·A·C)) / (2·A)`. -/
noncomputable def S1F (P : MP) (z : ℝ) (s2 : Flt) : Flt :=
  s2.bind fun s =>
    fdiv (fsub (some (-(s1B P s))) (fsqrt (some (discS1 P z s)))) (some (2 * mA P))

/-- One branch objective of `__mined` (lines 191-192):
`0.01·(αk + βk·(z - z̄) + S1(s2, z)) + dv·(αz - βz·(z - z̄) + s2)`. -/
noncomputable def minedBr (P : MP) (z dv : ℝ) (s2 : Flt) : Flt :=
  fadd (fmul (some (1/100)) (fadd (some (P.αk + P.βk * (z - P.zb))) (S1F P z s2)))
    (fmul (some dv) (fadd (some (P.αz - P.βz * (z - P.zb))) s2))

/-- The scalar minimum `min(mined1, mined2)` returned by `__mined`
(line 195). -/
noncomputable def minedValF (P : MP) (z dv : ℝ) : Flt :=
  pymin (minedBr P z dv (s21F P z dv)) (minedBr P z dv (s22F P z dv))

/-- The selected control `s21·(mined1 <= mined2) + s22·(mined1 > mined2)`
returned by `__mined` (line 196). -/
noncomputable def minedCtlF (P : MP) (z dv : ℝ) : Flt :=
  fadd
    (fmul (s21F P z dv)
      (some (fleInd (minedBr P z dv (s21F P z dv)) (minedBr P z dv (s22F P z dv)))))
    (fmul (s22F P z dv)
      (some (fgtInd (minedBr P z dv (s21F P z dv)) (minedBr P z dv (s22F P z dv)))))

/-- The dynamic return shape of `__mined`: the scalar branch returns the
tuple `(min value, selected control)`; the vector branch returns a bare
array; `arrPair` is the hypothetical vectorised pair shape. -/
inductive MinedResult where
  | pairS (val ctl : Flt)
  | arr (vals : List Flt)
  | arrPair (vals ctls : List Flt)

/-- `__mined` (lines 175-199): the `isinstance` test on `dv` selects the
scalar path, which returns a pair, or the vectorised path, which returns
`np.min(np.vstack([mined1, mined2]), axis=0)` alone (lines 197-199). -/
noncomputable def mined (P : MP) (z : ℝ) (dv : ℝ ⊕ List ℝ) : MinedResult :=
  match dv with
  | Sum.inl v => MinedResult.pairS (minedValF P z v) (minedCtlF P z v)
  | Sum.inr l => MinedResult.arr (l.map fun w =>
      npmin2 (minedBr P z w (s21F P z w)) (minedBr P z w (s22F P z w)))

/-- Whether a `__mined` result is a vectorised (values, controls) pair. -/
def hasVecCtls : MinedResult → Bool
  | MinedResult.arrPair _ _ => true
  | _ => false

/-- `temp = np.array([0.01, v1]).dot(σ).dot(σ.T).dot([[0.01],[v1]])` in
`__HJBODE` (line 158). -/
noncomputable def temp2 (P : MP) (v1 : ℝ) : ℝ :=
  ((1/100) * P.σk1 + v1 * P.σz1)^2 + ((1/100) * P.σk2 + v1 * P.σz2)^2

/-- The second component of `__HJBODE` on the scalar path (line 162):
`2/‖σz‖² · (δ·v0 - min_val + 1/(2θ)·temp)`. -/
noncomputable def hjb2F (P : MP) (θ z v0 v1 : ℝ) : Flt :=
  fmul (some (2 / P.nσz2))
    (fadd (fsub (some (P.δ * v0)) (minedValF P z v1))
      (some (1 / (2 * θ) * temp2 P v1)))

theorem fadd_some_some (x y : ℝ) : fadd (some x) (some y) = some (x + y) := rfl

theorem fadd_some_none (x : ℝ) : fadd (some x) none = none := rfl

theorem fadd_none (b : Flt) : fadd none b = none := rfl

theorem fsub_some_some (x y : ℝ) : fsub (some x) (some y) = some (x - y) := rfl

theorem fsub_some_none (x : ℝ) : fsub (some x) none = none := rfl

theorem fmul_some_none (x : ℝ) : fmul (some x) none = none := rfl

theorem fmul_some_some (x y : ℝ) : fmul (some x) (some y) = some (x * y) := rfl

theorem fdiv_none (b : Flt) : fdiv none b = none := rfl

theorem fsqrt_neg {x : ℝ} (h : x < 0) : fsqrt (some x) = none := by
  unfold fsqrt
  simp [h]

theorem fsqrt_of_not_lt {x : ℝ} (h : ¬ x < 0) : fsqrt (some x) = some (Real.sqrt x) := by
  unfold fsqrt
  simp [h]

theorem fdiv_some_of_ne {x y : ℝ} (h : y ≠ 0) : fdiv (some x) (some y) = some (x / y) := by
  unfold fdiv
  simp [h]

theorem fdiv_some_zero (x : ℝ) : fdiv (some x) (some 0) = none := by
  unfold fdiv
  simp

theorem minedBr_none (P : MP) (z dv : ℝ) : minedBr P z dv none = none := rfl

/-- If the `__S1` discriminant at a finite `s2` is negative, the branch
objective is NaN. -/
theorem minedBr_some_S1nan (P : MP) (z dv σ : ℝ) (h : discS1 P z σ < 0) :
    minedBr P z dv (some σ) = none := by
  unfold minedBr S1F
  rw [Option.some_bind, fsqrt_neg h, fsub_some_none, fdiv_none, fadd_some_none,
    fmul_some_none, fadd_none]

theorem s21F_eq_some {P : MP} {z dv σ : ℝ} (h : s21F P z dv = some σ) :
    0 ≤ discMined P z dv ∧ 2 * mAA P z dv ≠ 0 ∧
      σ = (-(mBB P z dv) + Real.sqrt (discMined P z dv)) / (2 * mAA P z dv) := by
  by_cases hd : discMined P z dv < 0
  · unfold s21F at h
    rw [fsqrt_neg hd, fadd_some_none, fdiv_none] at h
    exact absurd h (by simp)
  · by_cases hz : 2 * mAA P z dv = 0
    · unfold s21F at h
      rw [fsqrt_of_not_lt hd, fadd_some_some, hz, fdiv_some_zero] at h
      exact absurd h (by simp)
    · unfold s21F at h
      rw [fsqrt_of_not_lt hd, fadd_some_some, fdiv_some_of_ne hz] at h
      refine ⟨not_lt.mp hd, hz, ?_⟩
      injection h with h2
      rw [← h2]

theorem s22F_eq_some {P : MP} {z dv σ : ℝ} (h : s22F P z dv = some σ) :
    0 ≤ discMined P z dv ∧ 2 * mAA P z dv ≠ 0 ∧
      σ = (-(mBB P z dv) - Real.sqrt (discMined P z dv)) / (2 * mAA P z dv) := by
  by_cases hd : discMined P z dv < 0
  · unfold s22F at h
    rw [fsqrt_neg hd, fsub_some_none, fdiv_none] at h
    exact absurd h (by simp)
  · by_cases hz : 2 * mAA P z dv = 0
    · unfold s22F at h
      rw [fsqrt_of_not_lt hd, fsub_some_some, hz, fdiv_some_zero] at h
      exact absurd h (by simp)
    · unfold s22F at h
      rw [fsqrt_of_not_lt hd, fsub_some_some, fdiv_some_of_ne hz] at h
      refine ⟨not_lt.mp hd, hz, ?_⟩
      injection h with h2
      rw [← h2]

theorem mAA_ne_zero_of {P : MP} {z dv : ℝ} (hz : 2 * mAA P z dv ≠ 0) :
    mAA P z dv ≠ 0 := by
  intro h0
  exact hz (by rw [h0]; ring)

/-- A finite root produced by line 188/189 is a genuine root of the
embedded quadratic `AA·s² + BB·s + CC`. -/
theorem root_of_s21F {P : MP} {z dv σ : ℝ} (h : s21F P z dv = some σ) :
    mAA P z dv * σ^2 + mBB P z dv * σ + mCC P z dv = 0 := by
  obtain ⟨hd, hz, hσ⟩ := s21F_eq_some h
  have hAA : mAA P z dv ≠ 0 := mAA_ne_zero_of hz
  have hs : Real.sqrt (discMined P z dv)^2 = discMined P z dv := Real.sq_sqrt hd
  have hd2 : Real.sqrt (discMined P z dv)^2
      = mBB P z dv^2 - 4 * mAA P z dv * mCC P z dv := by
    rw [hs]
    unfold discMined
    ring
  have h2 : 2 * mAA P z dv * σ = -(mBB P z dv) + Real.sqrt (discMined P z dv) := by
    rw [hσ]
    field_simp
  have h4 : 4 * mAA P z dv * (mAA P z dv * σ^2 + mBB P z dv * σ + mCC P z dv) = 0 := by
    linear_combination (2 * mAA P z dv * σ + mBB P z dv
      + Real.sqrt (discMined P z dv)) * h2 + hd2
  rcases mul_eq_zero.mp h4 with h5 | h5
  · exact absurd (by linarith : mAA P z dv = 0) hAA
  · exact h5

theorem root_of_s22F {P : MP} {z dv σ : ℝ} (h : s22F P z dv = some σ) :
    mAA P z dv * σ^2 + mBB P z dv * σ + mCC P z dv = 0 := by
  obtain ⟨hd, hz, hσ⟩ := s22F_eq_some h
  have hAA : mAA P z dv ≠ 0 := mAA_ne_zero_of hz
  have hs : Real.sqrt (discMined P z dv)^2 = discMined P z dv := Real.sq_sqrt hd
  have hd2 : Real.sqrt (discMined P z dv)^2
      = mBB P z dv^2 - 4 * mAA P z dv * mCC P z dv := by
    rw [hs]
    unfold discMined
    ring
  have h2 : 2 * mAA P z dv * σ = -(mBB P z dv) - Real.sqrt (discMined P z dv) := by
    rw [hσ]
    field_simp
  have h4 : 4 * mAA P z dv * (mAA P z dv * σ^2 + mBB P z dv * σ + mCC P z dv) = 0 := by
    linear_combination (2 * mAA P z dv * σ + mBB P z dv
      - Real.sqrt (discMined P z dv)) * h2 + hd2
  rcases mul_eq_zero.mp h4 with h5 | h5
  · exact absurd (by linarith : mAA P z dv = 0) hAA
  · exact h5

/-- The embedded quadratic of `__mined` is, up to the square
`((b²-ad)·s - a·C1)²/a²`, the quadratic `E · (discriminant of __S1 at s)`:
this ties the two discriminants of the closed-form minimiser together. -/
theorem mined_quadratic_identity (P : MP) (z dv s : ℝ) (ha : P.a ≠ 0) :
    mAA P z dv * s^2 + mBB P z dv * s + mCC P z dv
      = mE P dv * discS1 P z s
        - ((P.b^2 - P.a * P.d) * s - P.a * mC1 P z)^2 / P.a^2 := by
  simp only [mAA, mBB, mCC, mE, mD, mA, mC2, mC0, mC1, discS1, s1B, s1C]
  field_simp
  ring

theorem mE_nonneg (P : MP) (dv : ℝ) : 0 ≤ mE P dv := by
  unfold mE
  exact sq_nonneg _

theorem discMined_eq_zero_of_E {P : MP} (z : ℝ) {dv : ℝ} (hE : mE P dv = 0) :
    discMined P z dv = 0 := by
  unfold discMined mAA mBB mCC
  rw [hE]
  ring

/-- Claim C7 (theorem): whenever the discriminant of the `__mined` quadratic
is negative, or a finite root `s21`/`s22` makes the `__S1` discriminant
negative, the minimised objective of `__mined` is NaN, and this NaN
propagates unclamped into the second component of the `__HJBODE`
right-hand side for every `v0` and θ. -/
theorem mined_nan_on_negative_discriminant (P : MP) (z dv : ℝ) (ha : P.a ≠ 0)
    (h : discMined P z dv < 0
      ∨ (∃ s, s21F P z dv = some s ∧ discS1 P z s < 0)
      ∨ (∃ s, s22F P z dv = some s ∧ discS1 P z s < 0)) :
    minedValF P z dv = none ∧ (∀ θ v0 : ℝ, hjb2F P θ z v0 dv = none) := by
  have hval : minedValF P z dv = none := by
    rcases h with hd | ⟨s, hs, hneg⟩ | ⟨s, hs, hneg⟩
    · have h21 : s21F P z dv = none := by
        unfold s21F
        rw [fsqrt_neg hd, fadd_some_none, fdiv_none]
      have h22 : s22F P z dv = none := by
        unfold s22F
        rw [fsqrt_neg hd, fsub_some_none, fdiv_none]
      unfold minedValF
      rw [h21, h22, minedBr_none]
      rfl
    · obtain ⟨hd, hz, hσ⟩ := s21F_eq_some hs
      have hroot := root_of_s21F hs
      have hid := mined_quadratic_identity P z dv s ha
      rw [hroot] at hid
      have hqnn : 0 ≤ ((P.b^2 - P.a * P.d) * s - P.a * mC1 P z)^2 / P.a^2 :=
        div_nonneg (sq_nonneg _) (sq_nonneg _)
      have hle : mE P dv ≤ 0 := by
        by_contra hpos
        push_neg at hpos
        have hlt : mE P dv * discS1 P z s < 0 := mul_neg_of_pos_of_neg hpos hneg
        linarith
      have hE0 : mE P dv = 0 := le_antisymm hle (mE_nonneg P dv)
      have hd0 : discMined P z dv = 0 := discMined_eq_zero_of_E z hE0
      have h22 : s22F P z dv = some s := by
        unfold s22F
        rw [hd0, fsqrt_of_not_lt (by norm_num), Real.sqrt_zero, fsub_some_some,
          fdiv_some_of_ne hz]
        congr 1
        rw [hσ, hd0, Real.sqrt_zero]
        ring
      unfold minedValF
      rw [hs, h22, minedBr_some_S1nan P z dv s hneg]
      rfl
    · obtain ⟨hd, hz, hσ⟩ := s22F_eq_some hs
      have hroot := root_of_s22F hs
      have hid := mined_quadratic_identity P z dv s ha
      rw [hroot] at hid
      have hqnn : 0 ≤ ((P.b^2 - P.a * P.d) * s - P.a * mC1 P z)^2 / P.a^2 :=
        div_nonneg (sq_nonneg _) (sq_nonneg _)
      have hle : mE P dv ≤ 0 := by
        by_contra hpos
        push_neg at hpos
        have hlt : mE P dv * discS1 P z s < 0 := mul_neg_of_pos_of_neg hpos hneg
        linarith
      have hE0 : mE P dv = 0 := le_antisymm hle (mE_nonneg P dv)
      have hd0 : discMined P z dv = 0 := discMined_eq_zero_of_E z hE0
      have h21 : s21F P z dv = some s := by
        unfold s21F
        rw [hd0, fsqrt_of_not_lt (by norm_num), Real.sqrt_zero, fadd_some_some,
          fdiv_some_of_ne hz]
        congr 1
        rw [hσ, hd0, Real.sqrt_zero]
        ring
      unfold minedValF
      rw [h21, hs, minedBr_some_S1nan P z dv s hneg]
      rfl
  refine ⟨hval, fun θ v0 => ?_⟩
  unfold hjb2F
  rw [hval, fsub_some_none, fadd_none, fmul_some_none]

/-- A concrete admissible parameter point (σk = (1,0), σz = (0,1), ρ1 = 1,
ρ2 = 0, αz = 1) at which the `__mined` discriminant is negative at
(z, v) = (0, 1/100). -/
noncomputable def Pw1 : MP := ⟨0, 1, 0, 0, 0, 1, 0, 0, 0, 1, 0, 0, 1⟩

/-- Witness for C7: the NaN result at the concrete infeasible input. -/
theorem mined_nan_witness :
    minedValF Pw1 0 (1/100) = none ∧ hjb2F Pw1 1 0 0 (1/100) = none := by
  have ha : Pw1.a ≠ 0 := by
    norm_num [MP.a, MP.σdet, Pw1]
  have hdisc : discMined Pw1 0 (1/100) < 0 := by
    norm_num [discMined, mAA, mBB, mCC, mE, mD, mA, mC2, mC1, mC0,
      MP.a, MP.b, MP.d, MP.σdet, MP.nσz2, Pw1]
  have h := mined_nan_on_negative_discriminant Pw1 0 (1/100) ha (Or.inl hdisc)
  exact ⟨h.1, h.2 1 0⟩

/-- Claim C3 (counterexample): at a concrete vectorised input, `__mined`
does not return control values alongside the objective minima — its return
is a bare array, not a (values, controls) pair. -/
theorem mined_vector_no_controls : hasVecCtls (mined Pw1 0 (Sum.inr [0])) = false := rfl

/-- Claim C3 (amended theorem): the scalar call returns the pair
(minimum objective, selected control); the vectorised call returns only the
array of pointwise objective minima, of the same length as the input, with
no control values; and wherever both branch objectives are finite the
vectorised minima agree with the value component of the scalar call. -/
theorem mined_return_shapes (P : MP) (z v : ℝ) (l : List ℝ) :
    mined P z (Sum.inl v) = MinedResult.pairS (minedValF P z v) (minedCtlF P z v) ∧
    mined P z (Sum.inr l) = MinedResult.arr (l.map fun w =>
      npmin2 (minedBr P z w (s21F P z w)) (minedBr P z w (s22F P z w))) ∧
    (l.map fun w =>
      npmin2 (minedBr P z w (s21F P z w)) (minedBr P z w (s22F P z w))).length
      = l.length ∧
    (∀ w x y : ℝ, minedBr P z w (s21F P z w) = some x →
      minedBr P z w (s22F P z w) = some y →
      npmin2 (minedBr P z w (s21F P z w)) (minedBr P z w (s22F P z w))
        = minedValF P z w) := by
  refine ⟨rfl, rfl, List.length_map _ _, fun w x y hx hy => ?_⟩
  unfold minedValF
  rw [hx, hy]
  have h1 : npmin2 (some x) (some y) = some (min x y) := rfl
  have h2 : pymin (some x) (some y) = if y < x then some y else some x := rfl
  rw [h1, h2]
  split_ifs with hlt
  · rw [min_eq_right hlt.le]
  · rw [min_eq_left (not_lt.mp hlt)]

/-- Parameter point (σk = (1,0), σz = (0,1), ρ1 = 1, ρ2 = 0, αz = 1/2)
where at (z, dv) = (0, 1/100) the `__mined` discriminant vanishes, both
roots equal -1, and both branch objectives are the finite value -1/200. -/
noncomputable def Pw2 : MP := ⟨0, 1/2, 0, 0, 0, 1, 0, 0, 0, 1, 0, 0, 1⟩

/-- Witness for the amended C3 at the concrete feasible input. -/
theorem mined_return_shapes_witness :
    mined Pw2 0 (Sum.inl (1/100))
      = MinedResult.pairS (minedValF Pw2 0 (1/100)) (minedCtlF Pw2 0 (1/100)) ∧
    mined Pw2 0 (Sum.inr [1/100])
      = MinedResult.arr [npmin2 (minedBr Pw2 0 (1/100) (s21F Pw2 0 (1/100)))
          (minedBr Pw2 0 (1/100) (s22F Pw2 0 (1/100)))] ∧
    npmin2 (minedBr Pw2 0 (1/100) (s21F Pw2 0 (1/100)))
        (minedBr Pw2 0 (1/100) (s22F Pw2 0 (1/100)))
      = minedValF Pw2 0 (1/100) := by
  have hdisc : discMined Pw2 0 (1/100) = 0 := by
    norm_num [discMined, mAA, mBB, mCC, mE, mD, mA, mC2, mC1, mC0,
      MP.a, MP.b, MP.d, MP.σdet, MP.nσz2, Pw2]
  have hBB : -(mBB Pw2 0 (1/100)) = (4 : ℝ) := by
    norm_num [mBB, mE, mD, mA, mC2, mC1, MP.a, MP.b, MP.d, MP.σdet, MP.nσz2, Pw2]
  have hAA : 2 * mAA Pw2 0 (1/100) = (-4 : ℝ) := by
    norm_num [mAA, mE, mD, mA, mC2, MP.a, MP.b, MP.d, MP.σdet, MP.nσz2, Pw2]
  have h21 : s21F Pw2 0 (1/100) = some (-1) := by
    unfold s21F
    rw [hdisc, fsqrt_of_not_lt (by norm_num), Real.sqrt_zero, fadd_some_some,
      hBB, hAA, fdiv_some_of_ne (by norm_num)]
    norm_num
  have h22 : s22F Pw2 0 (1/100) = some (-1) := by
    unfold s22F
    rw [hdisc, fsqrt_of_not_lt (by norm_num), Real.sqrt_zero, fsub_some_some,
      hBB, hAA, fdiv_some_of_ne (by norm_num)]
    norm_num
  have hS1d : discS1 Pw2 0 (-1) = 0 := by
    norm_num [discS1, s1B, s1C, mC1, mA, MP.a, MP.b, MP.d, MP.σdet, MP.nσz2, Pw2]
  have hs1b : -(s1B Pw2 (-1)) = (0 : ℝ) := by
    norm_num [s1B, MP.b, MP.σdet, Pw2]
  have hmA : 2 * mA Pw2 = (1 : ℝ) := by
    norm_num [mA, MP.a, MP.σdet, Pw2]
  have hS1 : S1F Pw2 0 (some (-1)) = some 0 := by
    unfold S1F
    rw [Option.some_bind, hS1d, fsqrt_of_not_lt (by norm_num), Real.sqrt_zero,
      fsub_some_some, hs1b, hmA, fdiv_some_of_ne (by norm_num)]
    norm_num
  have hbr : minedBr Pw2 0 (1/100) (some (-1)) = some (-(1/200)) := by
    unfold minedBr
    rw [hS1, fadd_some_some, fadd_some_some, fmul_some_some, fmul_some_some,
      fadd_some_some]
    norm_num [Pw2]
  have hx : minedBr Pw2 0 (1/100) (s21F Pw2 0 (1/100)) = some (-(1/200)) := by
    rw [h21, hbr]
  have hy : minedBr Pw2 0 (1/100) (s22F Pw2 0 (1/100)) = some (-(1/200)) := by
    rw [h22, hbr]
  obtain ⟨hh1, hh2, _, hh4⟩ := mined_return_shapes Pw2 0 (1/100) [1/100]
  exact ⟨hh1, hh2, hh4 (1/100) (-(1/200)) (-(1/200)) hx hy⟩

/-- The stored matched solution `self.v`: the canonical grid `v['x']` and
the rows of the solution array `v['y']` (value row, derivative row, and —
after `UpdatingDrift` — the appended second-derivative row). -/
structure VSol (n : ℕ) where
  x : Fin n → ℝ
  y : List (Fin n → Flt)

/-- The row `d2v` computed by `UpdatingDrift` (Tenuous.py lines 455-458):
at each grid point, the second component of `__HJBODE(v['x'][j],
v['y'][:,j], self.θ)`, which reads `v0 = v[0]` and `v1 = v[1]`. -/
noncomputable def d2vRow (P : MP) (θ : ℝ) {n : ℕ} (v : VSol n) : Fin n → Flt :=
  fun j =>
    ((v.y.getD 0 (fun _ => none)) j).bind fun v0 =>
      ((v.y.getD 1 (fun _ => none)) j).bind fun v1 =>
        hjb2F P θ (v.x j) v0 v1

/-- The effect of `UpdatingDrift` on `self.v` (Tenuous.py line 460):
`self.v['y'] = np.vstack([self.v['y'][:2,:], d2v])`; `self.v['x']` is not
written. -/
noncomputable def UpdatingDriftV (P : MP) (θ : ℝ) {n : ℕ} (v : VSol n) : VSol n :=
  { x := v.x, y := v.y.take 2 ++ [d2vRow P θ v] }

/-- Claim C10 (theorem): on a matched solution with rows [r0, r1],
`UpdatingDrift` leaves the grid and the first two rows unchanged and only
appends the second-derivative row, which is the `__HJBODE` right-hand side
at the stored θ evaluated on the stored rows. -/
theorem updatingDrift_frame (P : MP) (θ : ℝ) (n : ℕ) (r0 r1 : Fin n → Flt)
    (v : VSol n) (hy : v.y = [r0, r1]) :
    (UpdatingDriftV P θ v).x = v.x ∧
    (UpdatingDriftV P θ v).y = [r0, r1, d2vRow P θ v] ∧
    (∀ j, d2vRow P θ v j
      = (r0 j).bind fun v0 => (r1 j).bind fun v1 => hjb2F P θ (v.x j) v0 v1) := by
  refine ⟨rfl, ?_, ?_⟩
  · show v.y.take 2 ++ [d2vRow P θ v] = [r0, r1, d2vRow P θ v]
    rw [hy]
    rfl
  · intro j
    unfold d2vRow
    rw [hy]
    rfl

/-- Witness for C10 at a concrete two-row solution. -/
theorem updatingDrift_frame_witness :
    (UpdatingDriftV Pw1 1 (VSol.mk (fun _ : Fin 1 => 0)
        [fun _ => some 1, fun _ => some 2])).x = (fun _ : Fin 1 => (0 : ℝ)) ∧
    (UpdatingDriftV Pw1 1 (VSol.mk (fun _ : Fin 1 => 0)
        [fun _ => some 1, fun _ => some 2])).y
      = [fun _ => some 1, fun _ => some 2,
          d2vRow Pw1 1 (VSol.mk (fun _ : Fin 1 => 0)
            [fun _ => some 1, fun _ => some 2])] ∧
    (∀ j, d2vRow Pw1 1 (VSol.mk (fun _ : Fin 1 => 0)
        [fun _ => some 1, fun _ => some 2]) j
      = ((some 1 : Flt)).bind fun v0 => ((some 2 : Flt)).bind fun v1 =>
          hjb2F Pw1 1 0 v0 v1) :=
  updatingDrift_frame Pw1 1 1 (fun _ => some 1) (fun _ => some 2)
    (VSol.mk (fun _ => 0) [fun _ => some 1, fun _ => some 2]) rfl

/-- The model fields read by `__RelativeEntropyUS`: the σz volatility
vector, αz, βz and the mean-reversion point z̄; the grid spacing is the
constructor constant `self.Dz = 0.01`. -/
structure EP where
  σz1 : ℚ
  σz2 : ℚ
  αz : ℚ
  βz : ℚ
  zb : ℚ
deriving DecidableEq

def EP.nσz2 (p : EP) : ℚ := p.σz1^2 + p.σz2^2

/-- `self.Dz = 0.01`, set once in the `StructuredModel` constructor. -/
def Dz : ℚ := 1/100

/-- The local drift `σz.T·ηᵤ[:,j] + αz - βz·zgrid[j]` appearing in every
stencil row of `__RelativeEntropyUS` (lines 331-343). -/
def entμ (p : EP) {m : ℕ} (zg ηu1 ηu2 : Fin m → ℚ) (j : Fin m) : ℚ :=
  p.σz1 * ηu1 j + p.σz2 * ηu2 j + p.αz - p.βz * zg j

/-- The generator matrix Q of `__RelativeEntropyUS` (lines 328-343):
one-sided stencils on the first and last rows, central differences in the
interior. -/
def entQ (p : EP) {m : ℕ} (zg ηu1 ηu2 : Fin m → ℚ) :
    Matrix (Fin m) (Fin m) ℚ := fun j k =>
  if (j : ℕ) = 0 then
    if (k : ℕ) = 0 then entμ p zg ηu1 ηu2 j / Dz - (1/2) * p.nσz2 / Dz^2
    else if (k : ℕ) = 1 then -(entμ p zg ηu1 ηu2 j / Dz) + p.nσz2 / Dz^2
    else if (k : ℕ) = 2 then -((1/2) * p.nσz2) / Dz^2
    else 0
  else if (j : ℕ) = m - 1 then
    if k = j then -(entμ p zg ηu1 ηu2 j / Dz) - (1/2) * p.nσz2 / Dz^2
    else if (k : ℕ) + 1 = (j : ℕ) then entμ p zg ηu1 ηu2 j / Dz + p.nσz2 / Dz^2
    else if (k : ℕ) + 2 = (j : ℕ) then -((1/2) * p.nσz2) / Dz^2
    else 0
  else
    if (k : ℕ) + 1 = (j : ℕ) then
      entμ p zg ηu1 ηu2 j / (2 * Dz) - (1/2) * p.nσz2 / Dz^2
    else if k = j then p.nσz2 / Dz^2
    else if (k : ℕ) = (j : ℕ) + 1 then
      -(entμ p zg ηu1 ηu2 j / (2 * Dz)) - (1/2) * p.nσz2 / Dz^2
    else 0

/-- The pinned system `lhs` of line 348: every column whose grid point
equals z̄ is overwritten with ones. -/
def entQpin (p : EP) {m : ℕ} (zg ηu1 ηu2 : Fin m → ℚ) :
    Matrix (Fin m) (Fin m) ℚ :=
  fun j k => if zg k = p.zb then 1 else entQ p zg ηu1 ηu2 j k

/-- The right-hand side of line 346: half the squared norm of ηᵤ - ηₛ. -/
def entRhs {m : ℕ} (ηu1 ηu2 ηs1 ηs2 : Fin m → ℚ) : Fin m → ℚ := fun j =>
  ((ηu1 j - ηs1 j)^2 + (ηu2 j - ηs2 j)^2) / 2

/-- `np.linalg.solve` modelled by Cramer's rule: for a nonsingular matrix
this is the unique solution of A·x = b (the library raises `LinAlgError` on
exactly singular input). -/
def linSolve {m : ℕ} (A : Matrix (Fin m) (Fin m) ℚ) (b : Fin m → ℚ) :
    Fin m → ℚ :=
  (A.det)⁻¹ • (A.adjugate).mulVec b

theorem linSolve_mulVec {m : ℕ} {A : Matrix (Fin m) (Fin m) ℚ}
    {b x : Fin m → ℚ} (hdet : A.det ≠ 0) (hx : A.mulVec x = b) :
    linSolve A b = x := by
  unfold linSolve
  rw [← hx, Matrix.mulVec_mulVec, Matrix.adjugate_mul, Matrix.smul_mulVec_assoc,
    smul_smul, inv_mul_cancel₀ hdet, one_smul, Matrix.one_mulVec]

/-- The solution of the pinned entropy system (line 349). -/
def entSol (p : EP) {m : ℕ} (zg ηu1 ηu2 ηs1 ηs2 : Fin m → ℚ) : Fin m → ℚ :=
  linSolve (entQpin p zg ηu1 ηu2) (entRhs ηu1 ηu2 ηs1 ηs2)

/-- The scalar(s) returned by `__RelativeEntropyUS` (line 350):
`np.sqrt(sol[zgrid == z̄] * 2)`, i.e. this value at each pinned index. -/
noncomputable def RelativeEntropyUS (p : EP) {m : ℕ}
    (zg ηu1 ηu2 ηs1 ηs2 : Fin m → ℚ) (k : Fin m) : ℝ :=
  Real.sqrt (((entSol p zg ηu1 ηu2 ηs1 ηs2 k * 2 : ℚ) : ℝ))

/-- Claim C5 (theorem): on a grid of at least three points containing the
mean-reversion point, with a nonsingular pinned system (`np.linalg.solve`
raises otherwise, per the spec's SingularLinearSystem error) and zero
distortion difference ηᵤ = ηₛ, `__RelativeEntropyUS` returns exactly 0
at the pinned point, the return being sqrt(2 × pinned solution). -/
theorem relEntropy_zero_distortion (p : EP) (m : ℕ)
    (zg ηu1 ηu2 ηs1 ηs2 : Fin m → ℚ) (hm : 3 ≤ m)
    (hdet : (entQpin p zg ηu1 ηu2).det ≠ 0)
    (h1 : ηu1 = ηs1) (h2 : ηu2 = ηs2) (k : Fin m) (hk : zg k = p.zb) :
    RelativeEntropyUS p zg ηu1 ηu2 ηs1 ηs2 k = 0 := by
  have hrhs : entRhs ηu1 ηu2 ηs1 ηs2 = fun _ => 0 := by
    funext j
    rw [h1, h2]
    simp [entRhs]
  have hsol : entSol p zg ηu1 ηu2 ηs1 ηs2 = fun _ => 0 := by
    unfold entSol
    rw [hrhs]
    exact linSolve_mulVec hdet (Matrix.mulVec_zero _)
  unfold RelativeEntropyUS
  rw [hsol]
  norm_num

/-- A concrete 3-point instance for the C5 witness: σz = (0,1), αz = 0,
βz = -1, z̄ = 0, grid (-1, 0, 1), zero distortions. -/
def pw5 : EP := ⟨0, 1, 0, -1, 0⟩

def zg3 : Fin 3 → ℚ := fun k => ((k : ℕ) : ℚ) - 1

def η0 : Fin 3 → ℚ := fun _ => 0

/-- Witness for C5: the pinned 3×3 system at the concrete instance is
nonsingular (det = 10000) and the returned entropy is 0. -/
theorem relEntropy_zero_distortion_witness :
    RelativeEntropyUS pw5 zg3 η0 η0 η0 η0 1 = 0 := by
  have hdet : (entQpin pw5 zg3 η0 η0).det = 10000 := by
    rw [Matrix.det_fin_three]
    norm_num [entQpin, entQ, entμ, EP.nσz2, Dz, pw5, zg3, η0]
    norm_num [Fin.ext_iff, Fin.val_one, Fin.val_two, Fin.val_zero]
  exact relEntropy_zero_distortion pw5 3 zg3 η0 η0 η0 η0 (le_refl 3)
    (by rw [hdet]; norm_num) rfl rfl 1 (by norm_num [zg3, pw5])

/-- The interior tridiagonal matrix `A[1:-1, 1:-1]` assembled by
`FeynmanKac` (Tenuous.py lines 54-79): row i corresponds to grid row i+1,
with `s = norm(σz)²`; diagonal `-1 + Dt·(-s/Dz²)`, upper
`Dt·(μz[j]/(2Dz) + s/(2Dz²))`, lower `Dt·(-μz[j]/(2Dz) + s/(2Dz²))`. -/
def fkAint (n : ℕ) (μz : Fin (n+2) → ℚ) (s Dzv Dt : ℚ) :
    Matrix (Fin n) (Fin n) ℚ := fun i k =>
  if k = i then -1 + Dt * (-s / Dzv^2)
  else if (k : ℕ) = (i : ℕ) + 1 then
    Dt * (μz i.castSucc.succ / (2 * Dzv) + (1/2) * s / Dzv^2)
  else if (k : ℕ) + 1 = (i : ℕ) then
    Dt * (-(μz i.castSucc.succ) / (2 * Dzv) + (1/2) * s / Dzv^2)
  else 0

/-- `a1 = A[1,0]` (line 77): the dropped lower entry of the first interior
row. -/
def fka1 (n : ℕ) (μz : Fin (n+2) → ℚ) (s Dzv Dt : ℚ) : ℚ :=
  Dt * (-(μz 1) / (2 * Dzv) + (1/2) * s / Dzv^2)

/-- `a2 = A[-2,-1]` (line 78): the dropped upper entry of the last interior
row (grid row n when the grid has n+2 points). -/
def fka2 (n : ℕ) (μz : Fin (n+2) → ℚ) (s Dzv Dt : ℚ) : ℚ :=
  Dt * (μz ⟨n, by omega⟩ / (2 * Dzv) + (1/2) * s / Dzv^2)

/-- The right-hand side of one implicit step (lines 86-88):
`b = -ϕold[1:-1]`, then `b[0] -= a1·ϕold[0]` and `b[-1] -= a2·ϕold[-1]`
(for a single interior point both corrections hit the same entry). -/
def fkB (n : ℕ) (μz : Fin (n+2) → ℚ) (s Dzv Dt : ℚ) (ϕ : Fin (n+2) → ℚ) :
    Fin n → ℚ := fun i =>
  -ϕ i.castSucc.succ
    - (if (i : ℕ) = 0 then fka1 n μz s Dzv Dt * ϕ 0 else 0)
    - (if (i : ℕ) = n - 1 then fka2 n μz s Dzv Dt * ϕ (Fin.last (n+1)) else 0)

/-- One time step of `FeynmanKac` (lines 85-92): solve the interior system
by `spsolve` (modelled by `linSolve`), then reconstruct the two boundary
values by linear extrapolation `ϕ_new boundary = 2·adjacent - next-adjacent`.
The extrapolation reads interior indices 0, 1 and n-1, n-2, which requires
at least two interior points. -/
def fkStep (n : ℕ) (h2 : 2 ≤ n) (μz : Fin (n+2) → ℚ) (s Dzv Dt : ℚ)
    (ϕold : Fin (n+2) → ℚ) : Fin (n+2) → ℚ :=
  let ψ := linSolve (fkAint n μz s Dzv Dt) (fkB n μz s Dzv Dt ϕold)
  fun j =>
    if hj0 : (j : ℕ) = 0 then 2 * ψ ⟨0, by omega⟩ - ψ ⟨1, by omega⟩
    else if hjl : (j : ℕ) = n + 1 then
      2 * ψ ⟨n - 1, by omega⟩ - ψ ⟨n - 2, by omega⟩
    else ψ ⟨(j : ℕ) - 1, by have := j.isLt; omega⟩

/-- `int(T/Dt)`: for a nonnegative ratio, the floor. -/
def fkSteps (T Dt : ℚ) : ℕ := (Int.floor (T / Dt)).toNat

/-- `FeynmanKac` (Tenuous.py lines 50-93) on a grid of n+2 points: the
space × (int(T/Dt) + 1) array of expectation curves, marching the implicit
tridiagonal system forward from the initial spatial function.  With fewer
than four grid points (n < 2) the boundary extrapolation
`2·ϕnew[0] - ϕnew[1]` indexes past the end of the length-n interior
solution and the call fails with an IndexError, modelled as `none`. -/
def FeynmanKac (n : ℕ) (μz : Fin (n+2) → ℚ) (σz1 σz2 : ℚ)
    (zg : Fin (n+2) → ℚ) (fintl : Fin (n+2) → ℚ) (T Dt : ℚ) :
    Option (Fin (n+2) → Fin (fkSteps T Dt + 1) → ℚ) :=
  if h2 : 2 ≤ n then
    some (fun j t =>
      ((fkStep n h2 μz (σz1^2 + σz2^2) (zg 1 - zg 0) Dt)^[(t : ℕ)] fintl) j)
  else none

theorem sum_ite_nat_eq {n : ℕ} (k0 : ℕ) (v : ℚ) :
    (∑ k : Fin n, if (k : ℕ) = k0 then v else 0) = if k0 < n then v else 0 := by
  by_cases h : k0 < n
  · rw [if_pos h, Finset.sum_eq_single (⟨k0, h⟩ : Fin n)]
    · simp
    · intro b _ hb
      rw [if_neg]
      intro hc
      exact hb (Fin.ext hc)
    · intro hc
      exact absurd (Finset.mem_univ _) hc
  · rw [if_neg h]
    apply Finset.sum_eq_zero
    intro k _
    rw [if_neg]
    intro hc
    exact h (hc ▸ k.isLt)

theorem sum_ite_nat_succ_eq {n : ℕ} (i0 : ℕ) (v : ℚ) (hi : i0 < n) :
    (∑ k : Fin n, if (k : ℕ) + 1 = i0 then v else 0)
      = if 0 < i0 then v else 0 := by
  by_cases h : 0 < i0
  · rw [if_pos h]
    have hshift : (∑ k : Fin n, if (k : ℕ) + 1 = i0 then v else 0)
        = ∑ k : Fin n, if (k : ℕ) = i0 - 1 then v else 0 := by
      apply Finset.sum_congr rfl
      intro k _
      by_cases hk : (k : ℕ) + 1 = i0
      · rw [if_pos hk, if_pos (by omega)]
      · rw [if_neg hk, if_neg (by omega)]
    rw [hshift, sum_ite_nat_eq (i0 - 1) v, if_pos (by omega)]
  · rw [if_neg h]
    apply Finset.sum_eq_zero
    intro k _
    rw [if_neg (by omega)]

/-- With zero drift, each entry of the interior matrix is a sum of three
index indicators. -/
theorem fkAint_zero_drift (n : ℕ) (μz : Fin (n+2) → ℚ) (s Dzv Dt : ℚ)
    (hμ : ∀ j, μz j = 0) (i k : Fin n) :
    fkAint n μz s Dzv Dt i k
      = (if (k : ℕ) = (i : ℕ) then (-1 + Dt * (-s / Dzv^2)) else 0)
        + (if (k : ℕ) = (i : ℕ) + 1 then Dt * ((1/2) * s / Dzv^2) else 0)
        + (if (k : ℕ) + 1 = (i : ℕ) then Dt * ((1/2) * s / Dzv^2) else 0) := by
  simp only [fkAint, hμ, Fin.ext_iff]
  split_ifs <;> first
    | omega
    | norm_num

/-- With zero drift and a constant previous column, the constant interior
vector solves the implicit system exactly. -/
theorem fkAint_mulVec_const (n : ℕ) (hn : 2 ≤ n) (μz : Fin (n+2) → ℚ)
    (s Dzv Dt c : ℚ) (hμ : ∀ j, μz j = 0) :
    (fkAint n μz s Dzv Dt).mulVec (fun _ => c)
      = fkB n μz s Dzv Dt (fun _ => c) := by
  funext i
  have hrow : (∑ k : Fin n, fkAint n μz s Dzv Dt i k)
      = (-1 + Dt * (-s / Dzv^2))
        + (if (i : ℕ) + 1 < n then Dt * ((1/2) * s / Dzv^2) else 0)
        + (if 0 < (i : ℕ) then Dt * ((1/2) * s / Dzv^2) else 0) := by
    rw [Finset.sum_congr rfl (fun k _ => fkAint_zero_drift n μz s Dzv Dt hμ i k)]
    rw [Finset.sum_add_distrib, Finset.sum_add_distrib]
    rw [sum_ite_nat_eq ((i : ℕ)) _, sum_ite_nat_eq ((i : ℕ) + 1) _,
      sum_ite_nat_succ_eq ((i : ℕ)) _ i.isLt, if_pos i.isLt]
  have hmv : (fkAint n μz s Dzv Dt).mulVec (fun _ => c) i
      = (∑ k : Fin n, fkAint n μz s Dzv Dt i k) * c := by
    rw [Finset.sum_mul]
    simp [Matrix.mulVec, Matrix.dotProduct]
  rw [hmv, hrow]
  unfold fkB fka1 fka2
  simp only [hμ]
  by_cases hi0 : (i : ℕ) = 0 <;> by_cases hil : (i : ℕ) = n - 1
  · omega
  · rw [if_pos (by omega), if_neg (by omega), if_pos hi0, if_neg hil]
    ring
  · rw [if_neg (by omega), if_pos (by omega), if_neg hi0, if_pos hil]
    ring
  · rw [if_pos (by omega), if_pos (by omega), if_neg hi0, if_neg hil]
    ring

/-- With zero drift a constant column is a fixed point of one implicit
step, including the two extrapolated boundary values. -/
theorem fkStep_const (n : ℕ) (hn : 2 ≤ n) (μz : Fin (n+2) → ℚ)
    (s Dzv Dt c : ℚ) (hμ : ∀ j, μz j = 0)
    (hdet : (fkAint n μz s Dzv Dt).det ≠ 0) :
    fkStep n hn μz s Dzv Dt (fun _ => c) = fun _ => c := by
  have hψ : linSolve (fkAint n μz s Dzv Dt) (fkB n μz s Dzv Dt (fun _ => c))
      = fun _ => c :=
    linSolve_mulVec hdet (fkAint_mulVec_const n hn μz s Dzv Dt c hμ)
  funext j
  unfold fkStep
  simp only [hψ]
  split_ifs <;> ring

/-- Claim C6 (amended theorem): on a grid of at least four points, with the
(nonsingular) implicit tridiagonal system, zero drift at every grid point
and a constant initial function, every entry of the `FeynmanKac` output
equals that constant, at every grid point and every one of the
int(T/Dt) + 1 time columns, boundary extrapolations included. -/
theorem feynmanKac_const (n : ℕ) (hn : 2 ≤ n) (μz : Fin (n+2) → ℚ)
    (σz1 σz2 : ℚ) (zg : Fin (n+2) → ℚ) (c T Dt : ℚ)
    (hμ : ∀ j, μz j = 0)
    (hdet : (fkAint n μz (σz1^2 + σz2^2) (zg 1 - zg 0) Dt).det ≠ 0) :
    FeynmanKac n μz σz1 σz2 zg (fun _ => c) T Dt = some (fun _ _ => c) := by
  unfold FeynmanKac
  rw [dif_pos hn]
  congr 1
  funext j t
  rw [Function.iterate_fixed
    (fkStep_const n hn μz (σz1^2 + σz2^2) (zg 1 - zg 0) Dt c hμ hdet) (t : ℕ)]

/-- Claim C6 (counterexample): at a three-point grid the boundary
extrapolation indexes past the end of the single-point interior solution
(`ϕnew[1]` raises IndexError), so no constant-preserving array is returned
at all. -/
theorem feynmanKac_three_points_fails :
    FeynmanKac 1 (fun _ => 0) 0 1 (fun j => ((j : ℕ) : ℚ)) (fun _ => 5) 1 1
      = none := rfl

/-- Witness for the amended C6: a four-point grid with unit spacing, zero
drift, σz = (0,1), constant 7, horizon 2, step 1; the interior system is
the 2×2 matrix [[-2, 1/2], [1/2, -2]] with determinant 15/4. -/
theorem feynmanKac_const_witness :
    FeynmanKac 2 (fun _ => 0) 0 1 (fun j => ((j : ℕ) : ℚ)) (fun _ => 7) 2 1
      = some (fun _ _ => 7) := by
  have hdet : (fkAint 2 (fun _ => (0 : ℚ)) (0^2 + 1^2)
      ((fun j : Fin 4 => ((j : ℕ) : ℚ)) 1 - (fun j : Fin 4 => ((j : ℕ) : ℚ)) 0)
      1).det = 15/4 := by
    rw [Matrix.det_fin_two]
    norm_num [fkAint, Fin.ext_iff, Fin.val_one, Fin.val_zero]
  exact feynmanKac_const 2 (by norm_num) (fun _ => 0) 0 1
    (fun j => ((j : ℕ) : ℚ)) 7 2 1 (fun _ => rfl) (by rw [hdet]; norm_num)

end Tenuous
